import Mathlib

/-!
Verification of the browsing-digest pipeline in `dailyBrowsing_llamaCPP.py`.

Python strings are modelled as `List Char` (`PyStr`); Python floats are
modelled as exact rationals (every IEEE float value is a rational, and float
comparison agrees with rational comparison on the represented values).
Python's stable sort (`sorted`, Timsort) is modelled by `List.insertionSort`,
which is also stable; any two stable sorts agree on every input.
-/

namespace Browsing

/-- Python strings are sequences of code points. -/
abbrev PyStr := List Char

/-- Whitespace test used by Python's `str.strip()` (modelled on the common
whitespace characters; agrees with Python on space, tab, CR, LF). -/
def pyWs (c : Char) : Bool := c.isWhitespace

/-- Python `str.strip()`: drop whitespace from both ends. -/
def pyStrip (s : PyStr) : PyStr :=
  ((s.dropWhile pyWs).reverse.dropWhile pyWs).reverse

/-- Python `str.lower()` (code-point-wise lowercasing). -/
def pyLower (s : PyStr) : PyStr := s.map Char.toLower

/-- Python `s.startswith(pat)`: `startsWithStr pat s` is true when `pat` is an
initial segment of `s`. -/
def startsWithStr : PyStr → PyStr → Bool
  | [], _ => true
  | _ :: _, [] => false
  | c :: cs, d :: ds => c == d && startsWithStr cs ds

/-- Python `"sep".join(parts)`. -/
def pyJoin (sep : PyStr) : List PyStr → PyStr
  | [] => []
  | [x] => x
  | x :: y :: rest => x ++ sep ++ pyJoin sep (y :: rest)

/-- Lexicographic comparison of Python strings (`s <= t` on `str`). -/
def pyStrLeB : PyStr → PyStr → Bool
  | [], _ => true
  | _ :: _, [] => false
  | c :: cs, d :: ds => if c = d then pyStrLeB cs ds else decide (c < d)

/-- A page object from the `pages` array of the export, with the fields the
pipeline reads via `page.get(...)`.  Absent fields are `none`; `readingTime`
is an exact rational standing for the Python float. -/
structure Page where
  url : Option PyStr := none
  title : Option PyStr := none
  domain : Option PyStr := none
  content : Option PyStr := none
  timestamp : Option PyStr := none
  readingTime : Option ℚ := none
deriving DecidableEq

/-- Python `p.get('readingTime', 0)`. -/
def rtD (p : Page) : ℚ := p.readingTime.getD 0

/-- Python `p.get('content', '')`. -/
def contentD (p : Page) : PyStr := p.content.getD []

/-- Truthiness of `p.get('url')`: present and non-empty. -/
def urlTruthy (p : Page) : Bool :=
  match p.url with
  | none => false
  | some u => !u.isEmpty

/-- The float literal `0.5`, as the exact rational one half (written with an
explicit numerator and denominator so that it evaluates in the kernel). -/
def halfQ : ℚ := ⟨1, 2, by decide, by decide⟩

/-- The float literal `0.25`, as the exact rational one quarter. -/
def quarterQ : ℚ := ⟨1, 4, by decide, by decide⟩

theorem halfQ_eq : halfQ = 1/2 := by
  apply Rat.ext <;> norm_num [halfQ]

theorem quarterQ_eq : quarterQ = 1/4 := by
  apply Rat.ext <;> norm_num [quarterQ]

/-- The eligibility filter of `get_top_pages` (source lines 346-351):
`p.get('url') and p.get('url').strip().startswith('http') and
(p.get('readingTime', 0) > 0.5 or len(p.get('content', '')) > 100)`. -/
def validPage (p : Page) : Bool :=
  urlTruthy p &&
  startsWithStr ("http".toList) (pyStrip (p.url.getD [])) &&
  (decide (halfQ < rtD p) || decide (100 < (contentD p).length))

/-- The sort key of `get_top_pages`: `(p.get('readingTime', 0),
len(p.get('content', '')))`. -/
def sortKey (p : Page) : ℚ × ℕ := (rtD p, (contentD p).length)

/-- Python tuple order on sort keys: `x <= y` lexicographically. -/
def keyLeB (x y : ℚ × ℕ) : Bool :=
  decide (x.1 < y.1) || (decide (x.1 = y.1) && decide (x.2 ≤ y.2))

/-- The comparator realising `sorted(valid_pages, key=sortKey, reverse=True)`:
`a` may precede `b` exactly when `sortKey b <= sortKey a` (Python's
`reverse=True` sorts as if every comparison were flipped, keeping ties in
input order; `insertionSort` with this total preorder is the same stable
descending sort). -/
def pageGE (a b : Page) : Prop := keyLeB (sortKey b) (sortKey a) = true

instance : DecidableRel pageGE := fun _ _ =>
  inferInstanceAs (Decidable (_ = true))

/-- The deduplication key of `get_top_pages` (source lines 370-372):
`f"{domain}:{title}"` with `domain = page.get('domain','').strip().lower()`
and `title = page.get('title','').strip().lower()[:50]`. -/
def dedupKey (p : Page) : PyStr :=
  pyLower (pyStrip (p.domain.getD [])) ++ ':' :: (pyLower (pyStrip (p.title.getD []))).take 50

/-- The dedup-and-truncate loop of `get_top_pages` (source lines 367-377):
walk the sorted pages keeping the first page of each key, breaking as soon
as `top_n` pages are collected. -/
def dedupLoop (topN : ℕ) : List Page → List PyStr → List Page → List Page
  | [], _, uniq => uniq
  | p :: rest, seen, uniq =>
    let key := dedupKey p
    if key ∈ seen then dedupLoop topN rest seen uniq
    else
      let uniq' := uniq ++ [p]
      if topN ≤ uniq'.length then uniq'
      else dedupLoop topN rest (key :: seen) uniq'

/-- The filtered candidate set of `get_top_pages` (`valid_pages`). -/
def validFilter (pages : List Page) : List Page := pages.filter validPage

/-- The sorted candidate list of `get_top_pages` (`sorted_pages`). -/
def rankSorted (pages : List Page) : List Page :=
  List.insertionSort pageGE (validFilter pages)

/-- The ranker `get_top_pages(data, top_n)` (source lines 339-379). -/
def get_top_pages (pages : List Page) (top_n : ℕ) : List Page :=
  if (validFilter pages).isEmpty then []
  else (dedupLoop top_n (rankSorted pages) [] []).take top_n

/-- First-occurrence deduplication, following the spec's words: keep only the
first occurrence of each key under the established sort order. -/
def dedupFirst (seen : List PyStr) : List Page → List Page
  | [] => []
  | p :: rest =>
    if dedupKey p ∈ seen then dedupFirst seen rest
    else p :: dedupFirst (dedupKey p :: seen) rest

/-! ## Content budgeter (`prepare_content_for_llm`, source lines 277-310)

The per-page block interpolates a time-of-day string computed by
`datetime.fromisoformat(...).strftime('%H:%M')` with an `'Unknown time'`
fallback; that library call is outside the repository, so the block is
parameterised by the time-formatting function `fmt`. -/

/-- The comparator of `sorted(pages, key=lambda x: x.get('timestamp', ''))`:
ascending lexicographic order on the timestamp strings. -/
def tsLe (a b : Page) : Prop :=
  pyStrLeB (a.timestamp.getD []) (b.timestamp.getD []) = true

instance : DecidableRel tsLe := fun _ _ =>
  inferInstanceAs (Decidable (_ = true))

/-- The timestamp-sorted page list of `prepare_content_for_llm`. -/
def tsSorted (pages : List Page) : List Page :=
  List.insertionSort tsLe pages

/-- The rendered block of one page (source lines 289-304): a leading newline,
a `---` rule, the bracketed time string, title, source line, and the first
1000 characters of content, ending in a newline. -/
def renderPage (fmt : PyStr → PyStr) (p : Page) : PyStr :=
  "\n---\n[".toList ++ fmt (p.timestamp.getD []) ++ "] ".toList ++
  p.title.getD ("Untitled".toList) ++
  "\nSource: ".toList ++ p.domain.getD ("Unknown".toList) ++
  "\nContent: ".toList ++ (p.content.getD []).take 1000 ++
  "\n".toList

/-- The estimated unit cost of one block: `len(page_text) * 0.25`. -/
def blockCost (fmt : PyStr → PyStr) (p : Page) : ℚ :=
  ((renderPage fmt p).length : ℚ) * quarterQ

/-- The greedy accumulation loop of `prepare_content_for_llm` (source lines
288-309): append each block while the running total stays within the budget,
and stop outright at the first block that would exceed it. -/
def budgetLoop (fmt : PyStr → PyStr) (maxTokens : ℚ) :
    List Page → ℚ → List PyStr
  | [], _ => []
  | p :: rest, est =>
    let cost := blockCost fmt p
    if maxTokens < est + cost then []
    else renderPage fmt p :: budgetLoop fmt maxTokens rest (est + cost)

/-- The budgeter `prepare_content_for_llm(data, max_tokens)` (source lines 277-310),
applied to `data.get('pages', [])`. -/
def prepare_content_for_llm (fmt : PyStr → PyStr) (pages : List Page)
    (maxTokens : ℚ) : PyStr :=
  if pages.isEmpty then []
  else pyJoin ("\n".toList) (budgetLoop fmt maxTokens (tsSorted pages) 0)

/-- Spec-side greedy page count: how many leading blocks of the given cost
list fit before the running total would exceed the budget. -/
def greedyCount (maxTokens : ℚ) : List ℚ → ℚ → ℕ
  | [], _ => 0
  | c :: cs, est =>
    if maxTokens < est + c then 0
    else greedyCount maxTokens cs (est + c) + 1

/-- The number of pages the budgeter includes. -/
def numIncluded (fmt : PyStr → PyStr) (pages : List Page) (maxTokens : ℚ) : ℕ :=
  (budgetLoop fmt maxTokens (tsSorted pages) 0).length

/-! ## JSON values and record repair
(`normalize_json_keys`, `_collect_keys`, `load_browsing_data`)

Parsed JSON is modelled by the mutual inductive `JVal`/`JArr`/`JObj`.
Object keys produced by `json.loads` are always strings, and a Python dict
holds each key at most once; `JObj` is a plain association list and the
dict-comprehension semantics (a later duplicate key overwrites the value but
keeps the first occurrence's position) is modelled by `dictInsert`. -/

mutual
inductive JVal where
  | str : PyStr → JVal
  | num : ℚ → JVal
  | boolean : Bool → JVal
  | null : JVal
  | arr : JArr → JVal
  | obj : JObj → JVal
inductive JArr where
  | nil : JArr
  | cons : JVal → JArr → JArr
inductive JObj where
  | nil : JObj
  | cons : PyStr → JVal → JObj → JObj
end

/-- Python dict insertion: overwrite the value of an existing key in place,
otherwise append the new binding at the end. -/
def dictInsert (k : PyStr) (v : JVal) : JObj → JObj
  | .nil => .cons k v .nil
  | .cons k' v' rest =>
    if k' = k then .cons k' v rest else .cons k' v' (dictInsert k v rest)

mutual
/-- The repairer `normalize_json_keys(obj)` (source lines 89-110): recursively strip
mapping keys (dropping keys that become empty) and string values. -/
def normalize_json_keys : JVal → JVal
  | .str s => .str (pyStrip s)
  | .num q => .num q
  | .boolean b => .boolean b
  | .null => .null
  | .arr items => .arr (normArr items)
  | .obj entries => .obj (normObj entries .nil)
/-- The list case of `normalize_json_keys`. -/
def normArr : JArr → JArr
  | .nil => .nil
  | .cons x xs => .cons (normalize_json_keys x) (normArr xs)
/-- The dict-comprehension of `normalize_json_keys`, built left to right with
Python dict insertion semantics. -/
def normObj : JObj → JObj → JObj
  | .nil, acc => acc
  | .cons k v rest, acc =>
    let k' := pyStrip k
    if k' = [] then normObj rest acc
    else normObj rest (dictInsert k' (normalize_json_keys v) acc)
end

mutual
/-- The helper `_collect_keys(obj)` (source lines 112-124): every mapping key at any
nesting depth.  The Python code accumulates into a set; only membership in
the collection is ever used, so a list with possible duplicates is an
equivalent model. -/
def collectKeys : JVal → List PyStr
  | .str _ => []
  | .num _ => []
  | .boolean _ => []
  | .null => []
  | .arr items => collectKeysArr items
  | .obj entries => collectKeysObj entries
/-- Helper `_collect_keys` on a list element. -/
def collectKeysArr : JArr → List PyStr
  | .nil => []
  | .cons x xs => collectKeys x ++ collectKeysArr xs
/-- Helper `_collect_keys` on dict items. -/
def collectKeysObj : JObj → List PyStr
  | .nil => []
  | .cons k v rest => k :: (collectKeys v ++ collectKeysObj rest)
end

/-- Python `k.startswith(' ')`: the first character is a space (false on empty). -/
def startsWithSpc : PyStr → Bool
  | [] => false
  | c :: _ => c == ' '

/-- Python `k.endswith(' ')`: the last character is a space (false on empty). -/
def endsWithSpc (s : PyStr) : Bool := startsWithSpc s.reverse

/-- The repair detector of `load_browsing_data` (source lines 249-252):
some collected key starts or ends with a space character. -/
def needsRepairB (d : JVal) : Bool :=
  (collectKeys d).any fun k => startsWithSpc k || endsWithSpc k

/-- The repair step of `load_browsing_data` (source lines 253-264) as a pure
transformation: the repaired data together with whether repair was
performed. -/
def repairStep (d : JVal) : JVal × Bool :=
  if needsRepairB d then (normalize_json_keys d, true) else (d, false)

/-! ## `load_browsing_data` (source lines 221-275)

File-system effects are modelled by an explicit event trace.  The function's
external inputs (does the path exist, its suffix, the raw file text, and the
result of `json.loads` on that text) are passed explicitly; `parsed = none`
stands for a `json.JSONDecodeError`. -/

/-- One file-system effect of `load_browsing_data`. -/
inductive FileEvent where
  | copyToBackup : PyStr → FileEvent
  | writeOriginal : JVal → FileEvent

/-- The errors `load_browsing_data` raises, in source order. -/
inductive LoadErr where
  | fileNotFound
  | badSuffix
  | invalidJson
  | missingKeys
deriving DecidableEq

/-- Key membership in a dict. -/
def topKeyMem : JObj → PyStr → Bool
  | .nil, _ => false
  | .cons k' _ rest, k => k' == k || topKeyMem rest k

/-- Membership of a key among the top-level keys of the record
(`set(data.keys())`; non-mapping data is treated as having no keys). -/
def hasTopKey (d : JVal) (k : PyStr) : Bool :=
  match d with
  | .obj entries => topKeyMem entries k
  | _ => false

/-- The loader `load_browsing_data(filepath)` (source lines 221-275): existence check,
case-insensitive `.json` suffix check, parse, whitespace repair with a
backup-then-overwrite event trace, then required-key validation.  Returns
the resulting data or error, paired with the file events performed. -/
def load_browsing_data (exists_ : Bool) (suffix raw : PyStr)
    (parsed : Option JVal) : Except LoadErr JVal × List FileEvent :=
  if exists_ = false then (.error .fileNotFound, [])
  else if ¬ pyLower suffix = ".json".toList then (.error .badSuffix, [])
  else
    match parsed with
    | none => (.error .invalidJson, [])
    | some data =>
      let events :=
        if needsRepairB data then
          [FileEvent.copyToBackup raw,
           FileEvent.writeOriginal (normalize_json_keys data)]
        else []
      let data' := (repairStep data).1
      if hasTopKey data' ("date".toList) && hasTopKey data' ("pages".toList) then
        (.ok data', events)
      else (.error .missingKeys, events)

/-! ## Digest assembler (`save_digest`, source lines 568-580)

`save_digest` interpolates `datetime.now().strftime('%Y-%m-%d %H:%M')`
directly inside the component; the ambient clock reading is therefore an
explicit input `now` of the embedding, and the `stats` values are passed as
their rendered interpolations. -/

/-- The markdown artifact written by `save_digest`: header with date, the
internally computed generation timestamp, page count and reading time, then
the digest body between horizontal rules and a closing provenance note. -/
def save_digest_content (digest date totalPages totalReadingTime now : PyStr) :
    PyStr :=
  "# 📚 Browsing Digest - ".toList ++ date ++
  "\n**Generated**: ".toList ++ now ++
  "\n**Pages analyzed**: ".toList ++ totalPages ++
  "\n**Estimated reading time**: ".toList ++ totalReadingTime ++
  " minutes\n---\n".toList ++ digest ++
  "\n---\n*Generated locally using llama.cpp server. No data left your machine.*\n".toList

/-! ## Claim C1: the ranker's eligibility filter -/

/-- A page with `readingTime=0`, content of length 50 and a valid URL. -/
def pageShortStay : Page :=
  { url := some ("http://x.example".toList),
    content := some (List.replicate 50 'a'),
    readingTime := some 0 }

/-- A page with `readingTime=0.6` and empty content. -/
def pageBriefRead : Page :=
  { url := some ("http://y.example".toList),
    content := some [],
    readingTime := some ⟨3, 5, by decide, by decide⟩ }

/-- The filter in logical form. -/
theorem validPage_iff (p : Page) :
    validPage p = true ↔
      (∃ u, p.url = some u ∧ u ≠ [] ∧
        startsWithStr ("http".toList) (pyStrip u) = true) ∧
      ((1 : ℚ)/2 < rtD p ∨ 100 < (contentD p).length) := by
  unfold validPage urlTruthy
  cases hu : p.url with
  | none => simp [hu]
  | some u =>
    simp [hu, halfQ_eq, List.isEmpty_iff]

/-- C1: `get_top_pages` admits a page to the candidate set iff its `url` is
present, non-empty, and after trimming begins with `http`, and either its
`readingTime` exceeds 0.5 or its content length exceeds 100; in particular a
page with `readingTime=0`, content length 50 and a valid URL is excluded,
while a page with `readingTime=0.6` and empty content is included. -/
theorem ranker_filter_characterisation :
    (∀ p : Page, validPage p = true ↔
      (∃ u, p.url = some u ∧ u ≠ [] ∧
        startsWithStr ("http".toList) (pyStrip u) = true) ∧
      ((1 : ℚ)/2 < rtD p ∨ 100 < (contentD p).length)) ∧
    validPage pageShortStay = false ∧
    get_top_pages [pageShortStay] 15 = [] ∧
    validPage pageBriefRead = true ∧
    get_top_pages [pageBriefRead] 15 = [pageBriefRead] :=
  ⟨validPage_iff, by decide, by decide, by decide, by decide⟩

/-! ## Claim C2: deduplication and truncation -/

theorem dedupLoop_eq_dedupFirst (topN : ℕ) :
    ∀ (l : List Page) (seen : List PyStr) (acc : List Page),
      acc.length < topN →
      dedupLoop topN l seen acc = (acc ++ dedupFirst seen l).take topN := by
  intro l
  induction l with
  | nil =>
    intro seen acc h
    simp [dedupLoop, dedupFirst, List.take_of_length_le (Nat.le_of_lt h)]
  | cons p rest ih =>
    intro seen acc h
    by_cases hmem : dedupKey p ∈ seen
    · simp [dedupLoop, dedupFirst, hmem, ih _ _ h]
    · by_cases hfull : topN ≤ (acc ++ [p]).length
      · have hlen : topN = acc.length + 1 := by
          simp at hfull; omega
        simp [dedupLoop, dedupFirst, hmem, hfull, hlen]
        rw [show acc ++ p :: dedupFirst (dedupKey p :: seen) rest =
              (acc ++ [p]) ++ dedupFirst (dedupKey p :: seen) rest by simp]
        rw [List.take_left' (by simp)]
      · have hlt : (acc ++ [p]).length < topN := Nat.lt_of_not_le hfull
        simp only [dedupLoop, dedupFirst, hmem, if_neg hmem, if_neg hfull]
        rw [ih _ _ hlt]
        simp

theorem get_top_pages_eq_dedupFirst (pages : List Page) (topN : ℕ) :
    get_top_pages pages topN = (dedupFirst [] (rankSorted pages)).take topN := by
  unfold get_top_pages
  cases hv : (validFilter pages).isEmpty with
  | true =>
    have hnil : validFilter pages = [] := List.isEmpty_iff.mp hv
    simp [rankSorted, hnil, List.insertionSort, dedupFirst]
  | false =>
    simp only [Bool.false_eq_true, if_false]
    match topN with
    | 0 => simp
    | n + 1 =>
      rw [dedupLoop_eq_dedupFirst (n+1) _ [] [] (by simp)]
      simp [List.take_take]

theorem dedupFirst_keys_distinct :
    ∀ (l : List Page) (seen : List PyStr),
      ((dedupFirst seen l).map dedupKey).Nodup ∧
      ∀ p ∈ dedupFirst seen l, dedupKey p ∉ seen := by
  intro l
  induction l with
  | nil => simp [dedupFirst]
  | cons p rest ih =>
    intro seen
    by_cases hmem : dedupKey p ∈ seen
    · simp only [dedupFirst, if_pos hmem]
      exact ih seen
    · simp only [dedupFirst, if_neg hmem, List.map_cons, List.nodup_cons]
      refine ⟨⟨?_, (ih _).1⟩, ?_⟩
      · intro hk
        rcases List.mem_map.mp hk with ⟨q, hq, hkey⟩
        exact (ih (dedupKey p :: seen)).2 q hq (hkey ▸ List.mem_cons_self _ _)
      · intro q hq
        rcases List.mem_cons.mp hq with h | h
        · exact h ▸ hmem
        · intro hs
          exact (ih (dedupKey p :: seen)).2 q h (List.mem_cons_of_mem _ hs)

theorem pageGE_of_rt_lt {p q : Page} (h : rtD q < rtD p) : pageGE p q := by
  simp [pageGE, keyLeB, sortKey]
  exact Or.inl h

theorem not_pageGE_of_rt_lt {p q : Page} (h : rtD q < rtD p) : ¬ pageGE q p := by
  simp [pageGE, keyLeB, sortKey]
  exact ⟨le_of_lt h, fun he => absurd he (ne_of_gt h)⟩

theorem rankSorted_pair_of_rt_lt {p q : Page}
    (hv : validPage p = true) (hv' : validPage q = true) (h : rtD q < rtD p) :
    rankSorted [p, q] = [p, q] ∧ rankSorted [q, p] = [p, q] := by
  have h1 : pageGE p q := pageGE_of_rt_lt h
  have h2 : ¬ pageGE q p := not_pageGE_of_rt_lt h
  constructor <;>
    simp [rankSorted, validFilter, List.filter_cons, hv, hv',
      List.insertionSort, List.orderedInsert, h1, h2]

/-- C2: `get_top_pages` keeps only the first occurrence of each dedup key
(trimmed lowercased domain, a colon, and the trimmed lowercased title cut to
50 characters) under the sort order and returns at most `topN` entries; two
pages with identical domain and identical title prefix, differing only in
URL and reading time, yield exactly the entry with the higher reading
time. -/
theorem ranker_dedup_truncation :
    (∀ (pages : List Page) (topN : ℕ),
      get_top_pages pages topN = (dedupFirst [] (rankSorted pages)).take topN ∧
      (get_top_pages pages topN).length ≤ topN ∧
      ((get_top_pages pages topN).map dedupKey).Nodup) ∧
    (∀ (p q : Page) (topN : ℕ), 1 ≤ topN →
      p.title = q.title → p.domain = q.domain → p.content = q.content →
      p.timestamp = q.timestamp →
      validPage p = true → validPage q = true → rtD q < rtD p →
      get_top_pages [p, q] topN = [p] ∧ get_top_pages [q, p] topN = [p]) := by
  constructor
  · intro pages topN
    refine ⟨get_top_pages_eq_dedupFirst pages topN, ?_, ?_⟩
    · rw [get_top_pages_eq_dedupFirst]
      exact List.length_take_le _ _
    · rw [get_top_pages_eq_dedupFirst]
      have hnd := (dedupFirst_keys_distinct (rankSorted pages) []).1
      exact ((List.take_sublist _ _).map dedupKey).nodup hnd
  · intro p q topN htop ht hd _ _ hv hv' hrt
    have hk : dedupKey q = dedupKey p := by
      unfold dedupKey
      rw [ht, hd]
    have hpair := rankSorted_pair_of_rt_lt hv hv' hrt
    constructor <;>
      [rw [get_top_pages_eq_dedupFirst, hpair.1];
       rw [get_top_pages_eq_dedupFirst, hpair.2]] <;>
      simp [dedupFirst, hk, List.take_of_length_le, htop]

/-- Concrete instance for the two-page dedup case: the higher-reading-time
page is the single survivor whichever way round the input comes. -/
theorem ranker_dedup_truncation_witness :
    get_top_pages [{ url := some ("http://a".toList),
                     title := some ("T".toList),
                     domain := some ("d.com".toList),
                     readingTime := some 2 },
                   { url := some ("http://b".toList),
                     title := some ("T".toList),
                     domain := some ("d.com".toList),
                     readingTime := some 1 }] 5 =
      [{ url := some ("http://a".toList),
         title := some ("T".toList),
         domain := some ("d.com".toList),
         readingTime := some 2 }] :=
  (ranker_dedup_truncation.2
    { url := some ("http://a".toList), title := some ("T".toList),
      domain := some ("d.com".toList), readingTime := some 2 }
    { url := some ("http://b".toList), title := some ("T".toList),
      domain := some ("d.com".toList), readingTime := some 1 }
    5 (by decide) rfl rfl rfl rfl (by decide) (by decide) (by decide)).1

/-! ## Claim C3: ranking order and stability -/

theorem pageGE_iff {a b : Page} :
    pageGE a b ↔
      (rtD b < rtD a ∨
        (rtD a = rtD b ∧ (contentD b).length ≤ (contentD a).length)) := by
  simp only [pageGE, keyLeB, sortKey, Bool.or_eq_true, Bool.and_eq_true,
    decide_eq_true_eq]
  constructor
  · rintro (h | ⟨h, h'⟩)
    · exact Or.inl h
    · exact Or.inr ⟨h.symm, h'⟩
  · rintro (h | ⟨h, h'⟩)
    · exact Or.inl h
    · exact Or.inr ⟨h.symm, h'⟩

instance : IsTotal Page pageGE where
  total a b := by
    rw [pageGE_iff, pageGE_iff]
    rcases lt_trichotomy (rtD a) (rtD b) with h | h | h
    · exact Or.inr (Or.inl h)
    · rcases Nat.le_total ((contentD b).length) ((contentD a).length) with hl | hl
      · exact Or.inl (Or.inr ⟨h, hl⟩)
      · exact Or.inr (Or.inr ⟨h.symm, hl⟩)
    · exact Or.inl (Or.inl h)

instance : IsTrans Page pageGE where
  trans a b c hab hbc := by
    rw [pageGE_iff] at *
    rcases hab with h1 | ⟨h1, h1'⟩ <;> rcases hbc with h2 | ⟨h2, h2'⟩
    · exact Or.inl (lt_trans h2 h1)
    · exact Or.inl (h2 ▸ h1)
    · exact Or.inl (h1 ▸ h2)
    · exact Or.inr ⟨h1.trans h2, le_trans h2' h1'⟩

/-- First page of the determinism example: `readingTime` 10, content length
20. -/
def pageTieA : Page :=
  { url := some ("http://a.com/p".toList), domain := some ("a.com".toList),
    content := some (List.replicate 20 'x'), readingTime := some 10 }

/-- Second page of the determinism example: `readingTime` 10, content length
50. -/
def pageTieB : Page :=
  { url := some ("http://b.com/p".toList), domain := some ("b.com".toList),
    content := some (List.replicate 50 'x'), readingTime := some 10 }

/-- Third page of the determinism example: `readingTime` 5, content length
100. -/
def pageLong : Page :=
  { url := some ("http://c.com/p".toList), domain := some ("c.com".toList),
    content := some (List.replicate 100 'x'), readingTime := some 5 }

/-- C3: the ranker orders the filtered pages by `readingTime` descending,
breaking ties by content length descending; pages tying on both keys keep
their relative input order (stability); on reading times [10, 10, 5] with
content lengths [20, 50, 100] the result order is the second, first, third
page. -/
theorem ranker_ordering_determinism :
    (∀ pages : List Page, (rankSorted pages).Pairwise
      (fun a b => rtD b < rtD a ∨
        (rtD a = rtD b ∧ (contentD b).length ≤ (contentD a).length))) ∧
    (∀ (pages : List Page) (a b : Page), sortKey a = sortKey b →
      List.Sublist [a, b] (validFilter pages) →
      List.Sublist [a, b] (rankSorted pages)) ∧
    get_top_pages [pageTieA, pageTieB, pageLong] 15 =
      [pageTieB, pageTieA, pageLong] := by
  refine ⟨?_, ?_, by decide⟩
  · intro pages
    exact (List.sorted_insertionSort pageGE (validFilter pages)).imp
      (fun h => pageGE_iff.mp h)
  · intro pages a b hk hsub
    have h1 : rtD a = rtD b := congrArg Prod.fst hk
    have h2 : (contentD b).length ≤ (contentD a).length :=
      le_of_eq (congrArg Prod.snd hk).symm
    exact List.pair_sublist_insertionSort
      (pageGE_iff.mpr (Or.inr ⟨h1, h2⟩)) hsub

/-- A page tying with `tieQ` on both sort keys. -/
def tieP : Page :=
  { url := some ("http://p.com/1".toList), domain := some ("p.com".toList),
    content := some (List.replicate 30 'y'), readingTime := some 3 }

/-- A page tying with `tieP` on both sort keys. -/
def tieQ : Page :=
  { url := some ("http://q.com/1".toList), domain := some ("q.com".toList),
    content := some (List.replicate 30 'z'), readingTime := some 3 }

/-- Concrete instance of ranking stability: two pages with equal sort keys
keep their input order through the sort. -/
theorem ranker_ordering_determinism_witness :
    List.Sublist [tieP, tieQ] (rankSorted [tieP, tieQ]) :=
  ranker_ordering_determinism.2.1 [tieP, tieQ] tieP tieQ (by decide)
    (by rw [show validFilter [tieP, tieQ] = [tieP, tieQ] from by decide])

/-! ## Claims C4 and C5: the content budgeter -/

theorem pyStrLeB_total : ∀ s t : PyStr, pyStrLeB s t = true ∨ pyStrLeB t s = true := by
  intro s
  induction s with
  | nil => intro t; exact Or.inl rfl
  | cons c cs ih =>
    intro t
    cases t with
    | nil => exact Or.inr rfl
    | cons d ds =>
      by_cases hcd : c = d
      · subst hcd
        simp only [pyStrLeB, if_pos rfl]
        exact ih ds
      · have hdc : ¬ d = c := fun h => hcd h.symm
        simp only [pyStrLeB, if_neg hcd, if_neg hdc]
        rcases lt_or_gt_of_ne hcd with h | h
        · exact Or.inl (decide_eq_true h)
        · exact Or.inr (decide_eq_true h)

theorem pyStrLeB_trans : ∀ s t u : PyStr,
    pyStrLeB s t = true → pyStrLeB t u = true → pyStrLeB s u = true := by
  intro s
  induction s with
  | nil => intro t u _ _; rfl
  | cons c cs ih =>
    intro t u h1 h2
    cases t with
    | nil => simp [pyStrLeB] at h1
    | cons d ds =>
      cases u with
      | nil => simp [pyStrLeB] at h2
      | cons e es =>
        by_cases hcd : c = d <;> by_cases hde : d = e
        · subst hcd; subst hde
          simp only [pyStrLeB, if_pos rfl] at *
          exact ih ds es h1 h2
        · subst hcd
          simp only [pyStrLeB, if_pos rfl, if_neg hde] at *
          exact h2
        · subst hde
          simp only [pyStrLeB, if_neg hcd] at *
          exact h1
        · simp only [pyStrLeB, if_neg hcd, if_neg hde] at h1 h2
          have hlt : c < e :=
            lt_trans (of_decide_eq_true h1) (of_decide_eq_true h2)
          simp only [pyStrLeB, if_neg (ne_of_lt hlt)]
          exact decide_eq_true hlt

instance : IsTotal Page tsLe where
  total _ _ := pyStrLeB_total _ _

instance : IsTrans Page tsLe where
  trans _ _ _ h1 h2 := pyStrLeB_trans _ _ _ h1 h2

/-- The budget loop takes exactly a leading segment of the rendered blocks:
it never skips ahead to a later, smaller block. -/
theorem budgetLoop_eq_take (fmt : PyStr → PyStr) (m : ℚ) :
    ∀ (l : List Page) (est : ℚ),
      budgetLoop fmt m l est =
        (l.map (renderPage fmt)).take
          (greedyCount m (l.map (blockCost fmt)) est) := by
  intro l
  induction l with
  | nil => intro est; rfl
  | cons p rest ih =>
    intro est
    by_cases h : m < est + blockCost fmt p
    · simp [budgetLoop, greedyCount, h]
    · simp [budgetLoop, greedyCount, h, ih]

theorem greedyCount_mono {m1 m2 : ℚ} (h : m1 ≤ m2) :
    ∀ (cs : List ℚ) (est : ℚ),
      greedyCount m1 cs est ≤ greedyCount m2 cs est := by
  intro cs
  induction cs with
  | nil => intro est; exact Nat.le_refl 0
  | cons c cs' ih =>
    intro est
    by_cases h1 : m1 < est + c
    · simp [greedyCount, h1]
    · have h2 : ¬ m2 < est + c := not_lt.mpr (le_trans (not_lt.mp h1) h)
      simp only [greedyCount, if_neg h1, if_neg h2]
      exact Nat.succ_le_succ (ih (est + c))

/-- Every accepted block keeps the running total within the budget, and the
loop stops exactly at the first block that would exceed it. -/
theorem greedyCount_spec (m : ℚ) :
    ∀ (cs : List ℚ) (est : ℚ),
      (∀ i < greedyCount m cs est, est + ((cs.take (i+1)).sum) ≤ m) ∧
      (greedyCount m cs est < cs.length →
        m < est + ((cs.take (greedyCount m cs est + 1)).sum)) := by
  intro cs
  induction cs with
  | nil =>
    intro est
    exact ⟨fun i hi => absurd hi (Nat.not_lt_zero i), fun h => absurd h (by simp [greedyCount])⟩
  | cons c cs' ih =>
    intro est
    by_cases h : m < est + c
    · refine ⟨fun i hi => absurd hi (by simp [greedyCount, h]), fun _ => ?_⟩
      simp [greedyCount, h]
    · simp only [greedyCount, if_neg h]
      refine ⟨fun i hi => ?_, fun hlen => ?_⟩
      · cases i with
        | zero => simpa using not_lt.mp h
        | succ i' =>
          have := (ih (est + c)).1 i' (Nat.lt_of_succ_lt_succ hi)
          simpa [add_assoc] using this
      · have := (ih (est + c)).2 (Nat.lt_of_succ_lt_succ (by simpa using hlen))
        simpa [add_assoc] using this

/-- Joins of longer leading segments extend joins of shorter ones. -/
theorem pyJoin_take_ex (sep : PyStr) :
    ∀ (parts : List PyStr) (n1 n2 : ℕ), n1 ≤ n2 →
      ∃ u, pyJoin sep (parts.take n1) ++ u = pyJoin sep (parts.take n2) := by
  intro parts
  induction parts with
  | nil => intro n1 n2 _; exact ⟨[], by simp⟩
  | cons x rest ih =>
    intro n1 n2 h12
    match n1, n2, h12 with
    | 0, n2, _ => exact ⟨pyJoin sep ((x :: rest).take n2), by simp [pyJoin]⟩
    | k+1, l+1, h12 =>
      have hkl : k ≤ l := Nat.succ_le_succ_iff.mp h12
      cases rest with
      | nil => exact ⟨[], by simp⟩
      | cons r rs =>
        match k, l, hkl with
        | 0, 0, _ => exact ⟨[], by simp⟩
        | 0, m+1, _ =>
          refine ⟨sep ++ pyJoin sep (r :: rs.take m), ?_⟩
          simp [pyJoin, List.append_assoc]
        | j+1, m+1, hjm =>
          obtain ⟨u, hu⟩ := ih (j+1) (m+1) hjm
          refine ⟨u, ?_⟩
          simp only [List.take_succ_cons] at hu ⊢
          simp only [pyJoin, List.append_assoc]
          rw [hu]

/-- The costs of the rendered blocks in ascending-timestamp order. -/
def blockCosts (fmt : PyStr → PyStr) (pages : List Page) : List ℚ :=
  (tsSorted pages).map (blockCost fmt)

/-- C4: for a fixed page sequence and budgets `m1 <= m2` the budgeter
includes at least as many pages at `m2`, the output at `m1` is an initial
segment of the output at `m2`, and at every budget the accepted blocks are
exactly a leading segment (no skipping) of the blocks rendered in
ascending-timestamp order, cut at the first block that would exceed the
budget. -/
theorem budgeter_monotonicity (fmt : PyStr → PyStr) (pages : List Page)
    (m1 m2 : ℚ) (h12 : m1 ≤ m2) :
    numIncluded fmt pages m1 ≤ numIncluded fmt pages m2 ∧
    (∃ u, prepare_content_for_llm fmt pages m1 ++ u =
      prepare_content_for_llm fmt pages m2) ∧
    (∀ m : ℚ, budgetLoop fmt m (tsSorted pages) 0 =
      ((tsSorted pages).map (renderPage fmt)).take
        (greedyCount m (blockCosts fmt pages) 0)) ∧
    (∀ m : ℚ,
      (∀ i < greedyCount m (blockCosts fmt pages) 0,
        ((blockCosts fmt pages).take (i+1)).sum ≤ m) ∧
      (greedyCount m (blockCosts fmt pages) 0 < (blockCosts fmt pages).length →
        m < ((blockCosts fmt pages).take
          (greedyCount m (blockCosts fmt pages) 0 + 1)).sum)) ∧
    (tsSorted pages).Pairwise tsLe := by
  refine ⟨?_, ?_, ?_, ?_, List.sorted_insertionSort tsLe pages⟩
  · unfold numIncluded
    rw [budgetLoop_eq_take, budgetLoop_eq_take]
    simp only [List.length_take, List.length_map]
    exact min_le_min (greedyCount_mono h12 _ _) (Nat.le_refl _)
  · unfold prepare_content_for_llm
    cases hpages : pages.isEmpty
    · simp only [Bool.false_eq_true, if_false]
      rw [budgetLoop_eq_take, budgetLoop_eq_take]
      exact pyJoin_take_ex _ _ _ _ (greedyCount_mono h12 _ _)
    · exact ⟨[], by simp⟩
  · intro m
    exact budgetLoop_eq_take fmt m _ 0
  · intro m
    have h := greedyCount_spec m (blockCosts fmt pages) 0
    refine ⟨fun i hi => ?_, fun hlen => ?_⟩
    · have := h.1 i hi
      simpa using this
    · have := h.2 hlen
      simpa using this

/-- Concrete instance of budgeter monotonicity. -/
theorem budgeter_monotonicity_witness :
    numIncluded (fun _ => "Unknown time".toList) [pageBriefRead] 1000 ≤
      numIncluded (fun _ => "Unknown time".toList) [pageBriefRead] 4000 :=
  (budgeter_monotonicity (fun _ => "Unknown time".toList) [pageBriefRead]
    1000 4000 (by decide)).1

/-- C5: the budgeter's output is exactly the join, on a single newline, of
the accepted newline-terminated blocks in ascending-timestamp order (so
consecutive blocks are separated by a single blank line), and is the empty
string on an empty page list. -/
theorem budgeter_output_shape (fmt : PyStr → PyStr) (pages : List Page)
    (m : ℚ) :
    prepare_content_for_llm fmt pages m =
      pyJoin ("\n".toList)
        (((tsSorted pages).map (renderPage fmt)).take
          (greedyCount m (blockCosts fmt pages) 0)) ∧
    (pages = [] → prepare_content_for_llm fmt pages m = []) := by
  constructor
  · unfold prepare_content_for_llm
    cases hpages : pages.isEmpty
    · simp only [Bool.false_eq_true, if_false]
      rw [budgetLoop_eq_take]
      rfl
    · have : pages = [] := List.isEmpty_iff.mp hpages
      subst this
      simp [tsSorted, List.insertionSort, pyJoin]
  · intro hnil
    subst hnil
    simp [prepare_content_for_llm]

/-- Concrete instance of the degenerate budgeter case: the empty page list
yields the empty string. -/
theorem budgeter_output_shape_witness :
    prepare_content_for_llm (fun _ => "Unknown time".toList) [] 4000 = [] :=
  (budgeter_output_shape (fun _ => "Unknown time".toList) [] 4000).2 rfl

/-! ## Claims C6 and C7: string facts about `pyStrip` -/

theorem pyStrip_eq_rdrop (s : PyStr) :
    pyStrip s = List.rdropWhile pyWs (s.dropWhile pyWs) := rfl

theorem length_dropWhile_le' (p : Char → Bool) (l : PyStr) :
    (l.dropWhile p).length ≤ l.length :=
  (List.dropWhile_suffix p).sublist.length_le

theorem length_rdropWhile_le (p : Char → Bool) (l : PyStr) :
    (List.rdropWhile p l).length ≤ l.length := by
  rw [List.rdropWhile, List.length_reverse]
  calc (l.reverse.dropWhile p).length ≤ l.reverse.length :=
        length_dropWhile_le' p l.reverse
    _ = l.length := List.length_reverse l

theorem length_pyStrip_le (s : PyStr) : (pyStrip s).length ≤ s.length :=
  le_trans (length_rdropWhile_le pyWs (s.dropWhile pyWs))
    (length_dropWhile_le' pyWs s)

/-- The result of `rdropWhile` extends to the original list by a suffix. -/
theorem rdropWhile_append (p : Char → Bool) (l : PyStr) :
    ∃ w, List.rdropWhile p l ++ w = l := by
  obtain ⟨w, hw⟩ := List.dropWhile_suffix (l := l.reverse) p
  refine ⟨w.reverse, ?_⟩
  have := congrArg List.reverse hw
  simpa [List.rdropWhile] using this

/-- A list fixed by `dropWhile` has a head not satisfying the predicate. -/
theorem dropWhile_fix_head {p : Char → Bool} {c : Char} {rest : PyStr}
    (h : List.dropWhile p (c :: rest) = c :: rest) : p c = false := by
  by_contra hb
  have hc : p c = true := by simpa using hb
  rw [List.dropWhile_cons_of_pos hc] at h
  have hle := length_dropWhile_le' p rest
  rw [h] at hle
  simp at hle

theorem pyStrip_idem (s : PyStr) : pyStrip (pyStrip s) = pyStrip s := by
  have hdropA : (s.dropWhile pyWs).dropWhile pyWs = s.dropWhile pyWs :=
    List.dropWhile_idempotent pyWs s
  obtain ⟨w, hw⟩ := rdropWhile_append pyWs (s.dropWhile pyWs)
  have hdropt : (List.rdropWhile pyWs (s.dropWhile pyWs)).dropWhile pyWs
      = List.rdropWhile pyWs (s.dropWhile pyWs) := by
    cases hc : List.rdropWhile pyWs (s.dropWhile pyWs) with
    | nil => rfl
    | cons c t2 =>
      rw [hc] at hw
      have hAc : s.dropWhile pyWs = c :: (t2 ++ w) := by
        rw [← hw]; simp
      have hfix : List.dropWhile pyWs (c :: (t2 ++ w)) = c :: (t2 ++ w) := by
        rw [← hAc]; exact hdropA
      have hf : pyWs c = false := dropWhile_fix_head hfix
      simp [List.dropWhile_cons, hf]
  show List.rdropWhile pyWs
      ((List.rdropWhile pyWs (s.dropWhile pyWs)).dropWhile pyWs)
    = List.rdropWhile pyWs (s.dropWhile pyWs)
  rw [hdropt]
  exact List.rdropWhile_idempotent pyWs (s.dropWhile pyWs)

/-- A string fixed by `pyStrip` starts with no whitespace character. -/
theorem pyStrip_fix_headWs {s : PyStr} (h : pyStrip s = s) :
    ∀ c rest, s = c :: rest → pyWs c = false := by
  intro c rest hs
  by_contra hb
  have hc : pyWs c = true := by simpa using hb
  have h1 : (s.dropWhile pyWs).length < s.length := by
    rw [hs, List.dropWhile_cons_of_pos hc]
    exact Nat.lt_succ_of_le (length_dropWhile_le' pyWs rest)
  have h2 : (pyStrip s).length ≤ (s.dropWhile pyWs).length :=
    length_rdropWhile_le pyWs (s.dropWhile pyWs)
  rw [h] at h2
  omega

/-- A string fixed by `pyStrip` ends with no whitespace character. -/
theorem pyStrip_fix_lastWs {s : PyStr} (h : pyStrip s = s) :
    ∀ c rest, s.reverse = c :: rest → pyWs c = false := by
  intro c rest hs
  by_contra hb
  have hc : pyWs c = true := by simpa using hb
  have hA : s.dropWhile pyWs = s := by
    obtain ⟨w, hw⟩ := List.dropWhile_suffix (l := s) pyWs
    have hlenA : (s.dropWhile pyWs).length = s.length := by
      have h2 : (pyStrip s).length ≤ (s.dropWhile pyWs).length :=
        length_rdropWhile_le pyWs (s.dropWhile pyWs)
      have h3 := length_dropWhile_le' pyWs s
      rw [h] at h2
      omega
    have hwnil := congrArg List.length hw
    simp [hlenA] at hwnil
    rw [hwnil] at hw
    simpa using hw
  have hself : List.rdropWhile pyWs s = s := by
    have h1 := pyStrip_eq_rdrop s
    rw [hA] at h1
    rw [← h1, h]
  have hsrep : s = rest.reverse ++ [c] := by
    have h2 := congrArg List.reverse hs
    simpa using h2
  have hcon : List.rdropWhile pyWs s = List.rdropWhile pyWs rest.reverse := by
    rw [hsrep]
    simp [hc]
  have hlen1 : (List.rdropWhile pyWs rest.reverse).length ≤ rest.length := by
    have h4 := length_rdropWhile_le pyWs rest.reverse
    simpa using h4
  have hlen2 : s.length = rest.length + 1 := by
    have h5 := congrArg List.length hsrep
    simpa using h5
  rw [hcon] at hself
  have h6 := congrArg List.length hself
  omega

/-- Strip-fixed strings have no leading or trailing space character. -/
theorem pyStrip_fix_noSpc {s : PyStr} (h : pyStrip s = s) :
    startsWithSpc s = false ∧ endsWithSpc s = false := by
  constructor
  · cases hs : s with
    | nil => rfl
    | cons c rest =>
      have hws := pyStrip_fix_headWs h c rest hs
      have hcne : c ≠ ' ' := by
        intro hceq
        rw [hceq] at hws
        have ht : pyWs ' ' = true := by decide
        simp [ht] at hws
      simp [hs, startsWithSpc, hcne]
  · cases hs : s.reverse with
    | nil => simp [endsWithSpc, startsWithSpc, hs]
    | cons c rest =>
      have hws := pyStrip_fix_lastWs h c rest hs
      have hcne : c ≠ ' ' := by
        intro hceq
        rw [hceq] at hws
        have ht : pyWs ' ' = true := by decide
        simp [ht] at hws
      simp [endsWithSpc, hs, startsWithSpc, hcne]

/-! ## Normalised records -/

mutual
/-- A normalised JSON value: every string value is strip-fixed, and every
mapping at any depth is normalised. -/
def isNormalized : JVal → Bool
  | .str s => decide (pyStrip s = s)
  | .num _ => true
  | .boolean _ => true
  | .null => true
  | .arr l => isNormalizedArr l
  | .obj l => isNormalizedObj l
/-- Normalisation of every element of a JSON array. -/
def isNormalizedArr : JArr → Bool
  | .nil => true
  | .cons x xs => isNormalized x && isNormalizedArr xs
/-- A normalised mapping: every key is strip-fixed, non-empty and occurs only
once (a Python dict holds each key once), and every value is normalised. -/
def isNormalizedObj : JObj → Bool
  | .nil => true
  | .cons k v rest =>
    decide (pyStrip k = k) && decide (¬ k = []) && !(topKeyMem rest k) &&
    isNormalized v && isNormalizedObj rest
end

/-- Appending two association lists. -/
def objAppend : JObj → JObj → JObj
  | .nil, o => o
  | .cons k v rest, o => .cons k v (objAppend rest o)

theorem objAppend_nil : ∀ o : JObj, objAppend o .nil = o
  | .nil => rfl
  | .cons k v rest => by simp [objAppend, objAppend_nil rest]

theorem objAppend_assoc : ∀ a b c : JObj,
    objAppend (objAppend a b) c = objAppend a (objAppend b c)
  | .nil, _, _ => rfl
  | .cons k v rest, b, c => by simp [objAppend, objAppend_assoc rest b c]

theorem topKeyMem_objAppend : ∀ (a b : JObj) (k : PyStr),
    topKeyMem (objAppend a b) k = (topKeyMem a k || topKeyMem b k)
  | .nil, _, _ => by simp [objAppend, topKeyMem]
  | .cons k2 v rest, b, k => by
    simp [objAppend, topKeyMem, topKeyMem_objAppend rest b k, Bool.or_assoc]

theorem topKeyMem_dictInsert : ∀ (l : JObj) (k : PyStr) (v : JVal) (k2 : PyStr),
    topKeyMem (dictInsert k v l) k2 = (k == k2 || topKeyMem l k2)
  | .nil, k, v, k2 => by simp [dictInsert, topKeyMem]
  | .cons k3 v3 rest, k, v, k2 => by
    by_cases h : k3 = k
    · subst h
      simp [dictInsert, topKeyMem]
    · simp only [dictInsert, if_neg h, topKeyMem,
        topKeyMem_dictInsert rest k v k2]
      by_cases h2 : (k3 == k2)
      · simp [h2]
      · simp [h2, Bool.or_left_comm]

/-- Inserting an absent key appends it at the end. -/
theorem dictInsert_of_not_mem : ∀ (l : JObj) (k : PyStr) (v : JVal),
    topKeyMem l k = false →
    dictInsert k v l = objAppend l (.cons k v .nil)
  | .nil, k, v, _ => rfl
  | .cons k2 v2 rest, k, v, hmem => by
    simp only [topKeyMem, Bool.or_eq_false_iff] at hmem
    have hne : ¬ k2 = k := by
      intro h
      rw [h] at hmem
      simp at hmem
    simp [dictInsert, if_neg hne, objAppend,
      dictInsert_of_not_mem rest k v hmem.2]

/-- The operation `dictInsert` preserves mapping normalisation when the inserted key is
strip-fixed, non-empty, and the value normalised. -/
theorem dictInsert_normalized : ∀ (l : JObj) (k : PyStr) (v : JVal),
    isNormalizedObj l = true → pyStrip k = k → ¬ k = [] →
    isNormalized v = true →
    isNormalizedObj (dictInsert k v l) = true
  | .nil, k, v, _, hk, hne, hv => by
    simp [dictInsert, isNormalizedObj, topKeyMem, hk, hne, hv]
  | .cons k2 v2 rest, k, v, hl, hk, hne, hv => by
    simp only [isNormalizedObj, Bool.and_eq_true, decide_eq_true_eq,
      Bool.not_eq_true'] at hl
    obtain ⟨⟨⟨⟨hk2, hne2⟩, hmem2⟩, hv2⟩, hrest⟩ := hl
    by_cases h : k2 = k
    · subst h
      simp [dictInsert, isNormalizedObj, hk2, hne2, hmem2, hv, hrest]
    · simp only [dictInsert, if_neg h, isNormalizedObj, Bool.and_eq_true,
        decide_eq_true_eq, Bool.not_eq_true']
      refine ⟨⟨⟨⟨hk2, hne2⟩, ?_⟩, hv2⟩,
        dictInsert_normalized rest k v hrest hk hne hv⟩
      rw [topKeyMem_dictInsert]
      have hkk : ¬ (k == k2) = true := by
        simp only [beq_iff_eq]
        intro he
        exact h he.symm
      simp only [Bool.or_eq_false_iff]
      exact ⟨by simpa using hkk, hmem2⟩

mutual
/-- The repairer `normalize_json_keys` always produces a normalised value. -/
theorem norm_isNormalized : ∀ v : JVal, isNormalized (normalize_json_keys v) = true
  | .str s => by simp [normalize_json_keys, isNormalized, pyStrip_idem]
  | .num _ => rfl
  | .boolean _ => rfl
  | .null => rfl
  | .arr l => by
    simp only [normalize_json_keys, isNormalized]
    exact normArr_isNormalized l
  | .obj l => by
    simp only [normalize_json_keys, isNormalized]
    exact normObj_isNormalized l .nil rfl
/-- Array case of `norm_isNormalized`. -/
theorem normArr_isNormalized : ∀ l : JArr, isNormalizedArr (normArr l) = true
  | .nil => rfl
  | .cons x xs => by
    simp only [normArr, isNormalizedArr, Bool.and_eq_true]
    exact ⟨norm_isNormalized x, normArr_isNormalized xs⟩
/-- Mapping case of `norm_isNormalized`: folding normalised entries into a
normalised accumulator stays normalised. -/
theorem normObj_isNormalized : ∀ (l : JObj) (acc : JObj),
    isNormalizedObj acc = true → isNormalizedObj (normObj l acc) = true
  | .nil, _, hacc => hacc
  | .cons k v rest, acc, hacc => by
    by_cases hk : pyStrip k = []
    · simp only [normObj, if_pos hk]
      exact normObj_isNormalized rest acc hacc
    · simp only [normObj, if_neg hk]
      exact normObj_isNormalized rest _
        (dictInsert_normalized acc (pyStrip k) _ hacc (pyStrip_idem k) hk
          (norm_isNormalized v))
end

mutual
/-- The repairer `normalize_json_keys` fixes every normalised value. -/
theorem norm_fix : ∀ v : JVal, isNormalized v = true → normalize_json_keys v = v
  | .str s, h => by
    simp only [isNormalized, decide_eq_true_eq] at h
    simp [normalize_json_keys, h]
  | .num _, _ => rfl
  | .boolean _, _ => rfl
  | .null, _ => rfl
  | .arr l, h => by
    simp only [isNormalized] at h
    simp only [normalize_json_keys]
    rw [normArr_fix l h]
  | .obj l, h => by
    simp only [isNormalized] at h
    simp only [normalize_json_keys]
    rw [normObj_fix l .nil h (fun _ _ => rfl)]
    rfl
/-- Array case of `norm_fix`. -/
theorem normArr_fix : ∀ l : JArr, isNormalizedArr l = true → normArr l = l
  | .nil, _ => rfl
  | .cons x xs, h => by
    simp only [isNormalizedArr, Bool.and_eq_true] at h
    simp only [normArr]
    rw [norm_fix x h.1, normArr_fix xs h.2]
/-- Mapping case of `norm_fix`: on normalised entries whose keys avoid the
accumulator, the fold appends the entries unchanged. -/
theorem normObj_fix : ∀ (l : JObj) (acc : JObj),
    isNormalizedObj l = true →
    (∀ k, topKeyMem l k = true → topKeyMem acc k = false) →
    normObj l acc = objAppend acc l
  | .nil, acc, _, _ => (objAppend_nil acc).symm
  | .cons k v rest, acc, h, hd => by
    simp only [isNormalizedObj, Bool.and_eq_true, decide_eq_true_eq,
      Bool.not_eq_true'] at h
    obtain ⟨⟨⟨⟨hk, hne⟩, hmem⟩, hv⟩, hrest⟩ := h
    simp only [normObj, hk, if_neg hne]
    rw [norm_fix v hv]
    have hacc : topKeyMem acc k = false := hd k (by simp [topKeyMem])
    rw [dictInsert_of_not_mem acc k v hacc]
    have hd2 : ∀ k2, topKeyMem rest k2 = true →
        topKeyMem (objAppend acc (.cons k v .nil)) k2 = false := by
      intro k2 hk2
      rw [topKeyMem_objAppend]
      have h1 : topKeyMem acc k2 = false := hd k2 (by simp [topKeyMem, hk2])
      have h2 : (k == k2) = false := by
        simp only [beq_eq_false_iff_ne, ne_eq]
        intro he
        rw [he] at hmem
        rw [hmem] at hk2
        exact Bool.false_ne_true hk2
      simp [h1, h2, topKeyMem]
    rw [normObj_fix rest _ hrest hd2, objAppend_assoc]
    rfl
end

mutual
/-- Every collected key of a normalised value is strip-fixed. -/
theorem collectKeys_stripped : ∀ v : JVal, isNormalized v = true →
    ∀ k ∈ collectKeys v, pyStrip k = k
  | .str _, _ => by simp [collectKeys]
  | .num _, _ => by simp [collectKeys]
  | .boolean _, _ => by simp [collectKeys]
  | .null, _ => by simp [collectKeys]
  | .arr l, h => by
    simp only [isNormalized] at h
    simpa [collectKeys] using collectKeysArr_stripped l h
  | .obj l, h => by
    simp only [isNormalized] at h
    simpa [collectKeys] using collectKeysObj_stripped l h
/-- Array case of `collectKeys_stripped`. -/
theorem collectKeysArr_stripped : ∀ l : JArr, isNormalizedArr l = true →
    ∀ k ∈ collectKeysArr l, pyStrip k = k
  | .nil, _ => by simp [collectKeysArr]
  | .cons x xs, h => by
    simp only [isNormalizedArr, Bool.and_eq_true] at h
    intro k hk
    simp only [collectKeysArr, List.mem_append] at hk
    rcases hk with hk | hk
    · exact collectKeys_stripped x h.1 k hk
    · exact collectKeysArr_stripped xs h.2 k hk
/-- Mapping case of `collectKeys_stripped`. -/
theorem collectKeysObj_stripped : ∀ l : JObj, isNormalizedObj l = true →
    ∀ k ∈ collectKeysObj l, pyStrip k = k
  | .nil, _ => by simp [collectKeysObj]
  | .cons k2 v rest, h => by
    simp only [isNormalizedObj, Bool.and_eq_true, decide_eq_true_eq,
      Bool.not_eq_true'] at h
    obtain ⟨⟨⟨⟨hk2, _⟩, _⟩, hv⟩, hrest⟩ := h
    intro k hk
    simp only [collectKeysObj, List.mem_cons, List.mem_append] at hk
    rcases hk with rfl | hk | hk
    · exact hk2
    · exact collectKeys_stripped v hv k hk
    · exact collectKeysObj_stripped rest hrest k hk
end

/-- Normalised values never trigger the repair detector. -/
theorem needsRepair_of_normalized {v : JVal} (h : isNormalized v = true) :
    needsRepairB v = false := by
  unfold needsRepairB
  rw [List.any_eq_false]
  intro k hk
  have hs := collectKeys_stripped v h k hk
  have hns := pyStrip_fix_noSpc hs
  simp [hns.1, hns.2]

/-- C7: repairing an already-normalised record returns it unchanged and
reports no repair; `normalize_json_keys` is idempotent on every value; and
the detector is false on every normaliser output. -/
theorem repair_idempotence (v : JVal) :
    (isNormalized v = true → repairStep v = (v, false)) ∧
    normalize_json_keys (normalize_json_keys v) = normalize_json_keys v ∧
    needsRepairB (normalize_json_keys v) = false := by
  refine ⟨fun h => ?_, ?_, ?_⟩
  · unfold repairStep
    rw [needsRepair_of_normalized h]
    rfl
  · exact norm_fix _ (norm_isNormalized v)
  · exact needsRepair_of_normalized (norm_isNormalized v)

/-- An already-normalised record. -/
def dateRec : JVal :=
  .obj (.cons ("date".toList) (.str ("2026-02-06".toList)) .nil)

/-- Concrete instance of repair idempotence on a normalised record. -/
theorem repair_idempotence_witness :
    repairStep dateRec = (dateRec, false) ∧
    normalize_json_keys (normalize_json_keys dateRec) =
      normalize_json_keys dateRec :=
  ⟨(repair_idempotence dateRec).1 (by decide),
   (repair_idempotence dateRec).2.1⟩

/-! ## Claim C6: what triggers the repair

The detector (source line 250) tests `k.startswith(' ') or k.endswith(' ')`
with a literal space character, while `normalize_json_keys` strips all
whitespace; a key carrying only a tab is whitespace-edged but does not
trigger repair. -/

/-- The first character satisfies `pyWs` (false on the empty string). -/
def headWs : PyStr → Bool
  | [] => false
  | c :: _ => pyWs c

/-- Some edge character of the key is whitespace (the spec's wording). -/
def keyEdgeWs (k : PyStr) : Bool := headWs k || headWs k.reverse

/-- Some edge character of the key is a space (the code's test). -/
def keyEdgeSpc (k : PyStr) : Bool := startsWithSpc k || endsWithSpc k

mutual
/-- Structural scan: some mapping key at some depth has a space at an edge. -/
def hasSpcKey : JVal → Bool
  | .str _ => false
  | .num _ => false
  | .boolean _ => false
  | .null => false
  | .arr l => hasSpcKeyArr l
  | .obj l => hasSpcKeyObj l
/-- Array case of `hasSpcKey`. -/
def hasSpcKeyArr : JArr → Bool
  | .nil => false
  | .cons x xs => hasSpcKey x || hasSpcKeyArr xs
/-- Mapping case of `hasSpcKey`. -/
def hasSpcKeyObj : JObj → Bool
  | .nil => false
  | .cons k v rest => keyEdgeSpc k || hasSpcKey v || hasSpcKeyObj rest
end

mutual
/-- Structural scan: some mapping key at some depth has whitespace at an
edge — the predicate the claim asserts to be the repair trigger. -/
def hasWsKey : JVal → Bool
  | .str _ => false
  | .num _ => false
  | .boolean _ => false
  | .null => false
  | .arr l => hasWsKeyArr l
  | .obj l => hasWsKeyObj l
/-- Array case of `hasWsKey`. -/
def hasWsKeyArr : JArr → Bool
  | .nil => false
  | .cons x xs => hasWsKey x || hasWsKeyArr xs
/-- Mapping case of `hasWsKey`. -/
def hasWsKeyObj : JObj → Bool
  | .nil => false
  | .cons k v rest => keyEdgeWs k || hasWsKey v || hasWsKeyObj rest
end

mutual
/-- The key-collection detector coincides with the structural space scan. -/
theorem needsRepairB_eq_hasSpcKey : ∀ v : JVal,
    needsRepairB v = hasSpcKey v
  | .str _ => rfl
  | .num _ => rfl
  | .boolean _ => rfl
  | .null => rfl
  | .arr l => by
    simp only [needsRepairB, collectKeys, hasSpcKey]
    exact anyKeys_eq_hasSpcKeyArr l
  | .obj l => by
    simp only [needsRepairB, collectKeys, hasSpcKey]
    exact anyKeys_eq_hasSpcKeyObj l
/-- Array case of `needsRepairB_eq_hasSpcKey`. -/
theorem anyKeys_eq_hasSpcKeyArr : ∀ l : JArr,
    ((collectKeysArr l).any fun k => startsWithSpc k || endsWithSpc k)
      = hasSpcKeyArr l
  | .nil => rfl
  | .cons x xs => by
    simp only [collectKeysArr, List.any_append, hasSpcKeyArr]
    rw [show ((collectKeys x).any fun k => startsWithSpc k || endsWithSpc k)
        = hasSpcKey x from needsRepairB_eq_hasSpcKey x,
      anyKeys_eq_hasSpcKeyArr xs]
/-- Mapping case of `needsRepairB_eq_hasSpcKey`. -/
theorem anyKeys_eq_hasSpcKeyObj : ∀ l : JObj,
    ((collectKeysObj l).any fun k => startsWithSpc k || endsWithSpc k)
      = hasSpcKeyObj l
  | .nil => rfl
  | .cons k v rest => by
    simp only [collectKeysObj, List.any_cons, List.any_append, hasSpcKeyObj]
    rw [show ((collectKeys v).any fun k2 => startsWithSpc k2 || endsWithSpc k2)
        = hasSpcKey v from needsRepairB_eq_hasSpcKey v,
      anyKeys_eq_hasSpcKeyObj rest]
    simp [keyEdgeSpc, Bool.or_assoc]
end

/-- A record whose only key begins with a tab: whitespace-edged but not
space-edged. -/
def tabRec : JVal := .obj (.cons ('\t' :: 'd' :: []) .null .nil)

/-- C6 counterexample: `tabRec` has a key with leading whitespace, yet the
repair step reports no repair and passes the structure through unchanged —
although the normaliser would strip the key.  The claim's iff (repair
performed iff some key has edge whitespace) is therefore false. -/
theorem repair_trigger_counterexample :
    hasWsKey tabRec = true ∧
    repairStep tabRec = (tabRec, false) ∧
    normalize_json_keys tabRec = .obj (.cons ('d' :: []) .null .nil) ∧
    ¬ JVal.obj (.cons ('\t' :: 'd' :: []) .null .nil)
      = .obj (.cons ('d' :: []) .null .nil) := by
  refine ⟨by decide, rfl, rfl, ?_⟩
  intro h
  simp at h

/-- C6 (amended): the repair transformation is performed iff some string key
at some nesting depth has a leading or trailing space character (not general
whitespace); when no such key exists, the structure passes through
unrepaired. -/
theorem repair_trigger_amended (v : JVal) :
    ((repairStep v).2 = true ↔ hasSpcKey v = true) ∧
    (hasSpcKey v = false → repairStep v = (v, false)) := by
  have hb : (repairStep v).2 = needsRepairB v := by
    unfold repairStep
    cases h : needsRepairB v <;> simp [h]
  constructor
  · rw [hb, needsRepairB_eq_hasSpcKey]
  · intro hf
    unfold repairStep
    rw [needsRepairB_eq_hasSpcKey, hf]
    rfl

/-- Concrete instance of the amended trigger: the tab-keyed record has no
space-edged key, so it passes through unrepaired. -/
theorem repair_trigger_amended_witness :
    repairStep tabRec = (tabRec, false) :=
  (repair_trigger_amended tabRec).2 (by decide)

/-! ## Claim C8: backup strictly precedes the overwrite -/

/-- The file events `load_browsing_data` performs, by case. -/
def loadEvents (exists_ : Bool) (suffix raw : PyStr) (parsed : Option JVal) :
    List FileEvent :=
  if exists_ = false then []
  else if ¬ pyLower suffix = ".json".toList then []
  else
    match parsed with
    | none => []
    | some data =>
      if needsRepairB data then
        [FileEvent.copyToBackup raw,
         FileEvent.writeOriginal (normalize_json_keys data)]
      else []

theorem load_snd_eq (exists_ : Bool) (suffix raw : PyStr)
    (parsed : Option JVal) :
    (load_browsing_data exists_ suffix raw parsed).2 =
      loadEvents exists_ suffix raw parsed := by
  unfold load_browsing_data loadEvents
  split
  next => rfl
  next =>
    split
    next => rfl
    next =>
      cases parsed with
      | none => rfl
      | some data =>
        dsimp only
        split <;> rfl

/-- C8: whenever the repaired form is written over the original location,
the verbatim copy of the raw source to the backup location occurs at a
strictly earlier position of the event trace. -/
theorem backup_precedes_overwrite (exists_ : Bool) (suffix raw : PyStr)
    (parsed : Option JVal) (i : ℕ) (v : JVal)
    (h : (load_browsing_data exists_ suffix raw parsed).2.get? i
      = some (.writeOriginal v)) :
    ∃ j, j < i ∧ (load_browsing_data exists_ suffix raw parsed).2.get? j
      = some (.copyToBackup raw) := by
  rw [load_snd_eq] at h ⊢
  unfold loadEvents at h ⊢
  by_cases hex : exists_ = false
  · rw [if_pos hex] at h
    simp at h
  · rw [if_neg hex] at h ⊢
    by_cases hsuf : ¬ pyLower suffix = (".json".toList)
    · rw [if_pos hsuf] at h
      simp at h
    · rw [if_neg hsuf] at h ⊢
      cases parsed with
      | none => simp at h
      | some data =>
        by_cases hrep : needsRepairB data = true
        · simp only [hrep, if_true] at h ⊢
          match i with
          | 0 => simp at h
          | 1 => exact ⟨0, Nat.zero_lt_one, rfl⟩
          | n + 2 => simp at h
        · simp only [hrep] at h
          simp at h

/-- A record whose only key carries a leading space: repair fires. -/
def spacedRec : JVal := .obj (.cons (' ' :: 'd' :: []) .null .nil)

/-- Concrete instance: on a space-keyed record the write of the repaired
form at position 1 is preceded by the backup at position 0. -/
theorem backup_precedes_overwrite_witness :
    ∃ j, j < 1 ∧
      (load_browsing_data true (".json".toList) ("r".toList)
        (some spacedRec)).2.get? j
        = some (.copyToBackup ("r".toList)) :=
  backup_precedes_overwrite true (".json".toList) ("r".toList)
    (some spacedRec) 1 (.obj (.cons ('d' :: []) .null .nil)) rfl

/-! ## Claim C10: the suffix gate fires before contents are consulted -/

/-- C10: for an existing path whose lowercased suffix is not `.json`,
loading fails with the suffix `ValueError` and performs no file events,
regardless of what the file contains — the same outcome for every parse
result, including a perfectly valid record. -/
theorem suffix_gate_before_read (suffix raw : PyStr)
    (parsed parsed2 : Option JVal)
    (h : ¬ pyLower suffix = (".json".toList)) :
    load_browsing_data true suffix raw parsed
      = (.error .badSuffix, []) ∧
    load_browsing_data true suffix raw parsed
      = load_browsing_data true suffix raw parsed2 := by
  have h1 : ∀ p, load_browsing_data true suffix raw p
      = (.error .badSuffix, []) := by
    intro p
    unfold load_browsing_data
    rw [if_neg (by simp), if_pos h]
  exact ⟨h1 parsed, (h1 parsed).trans (h1 parsed2).symm⟩

/-- A record with both required top-level keys. -/
def fullRec : JVal :=
  .obj (.cons ("date".toList) (.str ("2025-01-19".toList))
    (.cons ("pages".toList) (.arr .nil) .nil))

/-- Concrete instance: a `.txt` path fails with the suffix error even though
its contents are a valid record with `date` and `pages`. -/
theorem suffix_gate_before_read_witness :
    load_browsing_data true (".txt".toList) ("x".toList) (some fullRec)
      = (.error .badSuffix, []) :=
  (suffix_gate_before_read (".txt".toList) ("x".toList) (some fullRec) none
    (by decide)).1

/-! ## Claim C9: the assembler and the clock -/

/-- With the caller-supplied inputs fixed, the artifact determines the
embedded clock string. -/
theorem save_digest_content_inj (digest date tp trt : PyStr)
    {now1 now2 : PyStr}
    (h : save_digest_content digest date tp trt now1
      = save_digest_content digest date tp trt now2) : now1 = now2 := by
  unfold save_digest_content at h
  simp only [List.append_assoc] at h
  have h1 := List.append_cancel_left h
  have h2 := List.append_cancel_left h1
  have h3 := List.append_cancel_left h2
  exact List.append_cancel_right h3

/-- C9 counterexample: two runs of `save_digest` with identical narrative,
date and statistics, made at clock readings one minute apart, produce
different artifacts — the generated-at timestamp is computed inside the
component from the ambient clock, not supplied by the caller. -/
theorem assembler_clock_counterexample :
    ¬ save_digest_content ("SUMMARY".toList) ("2025-01-19".toList)
        ("3".toList) ("12".toList) ("2025-01-19 10:00".toList)
      = save_digest_content ("SUMMARY".toList) ("2025-01-19".toList)
        ("3".toList) ("12".toList) ("2025-01-19 10:01".toList) := by
  intro h
  have h2 := save_digest_content_inj _ _ _ _ h
  exact absurd h2 (by decide)

/-- C9 (amended): the artifact is a deterministic function of the narrative,
date, statistics and the clock reading taken inside `save_digest`; with all
caller-supplied inputs fixed, two artifacts are byte-identical exactly when
the two clock readings are identical. -/
theorem assembler_determinism_amended
    (digest date tp trt now1 now2 : PyStr) :
    save_digest_content digest date tp trt now1
      = save_digest_content digest date tp trt now2 ↔ now1 = now2 := by
  constructor
  · exact save_digest_content_inj digest date tp trt
  · intro h
    rw [h]

end Browsing
